import Mathlib

/-!
Verification development for the gval expression-language kernel
(`src/gval.go`).

The dynamically typed Go values handled by the engine are modelled by the
inductive `Gval.Value`: booleans, numbers (Go `float64` is modelled by exact
rationals `ℚ`; every operand the verified claims touch is exactly
representable), strings, ordered sequences (`[]interface{}`), string-keyed
objects, `nil`, and time points (opaque, modelled as `ℤ`).
`reflect.DeepEqual` on these values is structural equality, modelled by
`Gval.Value.beq`, which is proven equivalent to propositional equality.
-/

namespace Gval

/-- Evaluation errors, following the stable error kinds of the engine. -/
inductive Err where
  | typeError : Err
  | functionError : Err
  | unknownOperator : Err
  deriving DecidableEq, Repr

/-- A dynamically typed host value (`interface{}` in the source). -/
inductive Value where
  | vbool : Bool → Value
  | vnum : ℚ → Value
  | vstr : String → Value
  | varr : List Value → Value
  | vobj : List (String × Value) → Value
  | vnil : Value
  | vtime : ℤ → Value

mutual

/-- Structural (deep) equality of values: the model of `reflect.DeepEqual`
on the recognized value shapes. -/
def Value.beq : Value → Value → Bool
  | Value.vbool a, Value.vbool b => a == b
  | Value.vnum a, Value.vnum b => a == b
  | Value.vstr a, Value.vstr b => a == b
  | Value.varr xs, Value.varr ys => beqArr xs ys
  | Value.vobj xs, Value.vobj ys => beqObj xs ys
  | Value.vnil, Value.vnil => true
  | Value.vtime a, Value.vtime b => a == b
  | _, _ => false

/-- Element-wise structural equality of value sequences. -/
def beqArr : List Value → List Value → Bool
  | [], [] => true
  | x :: xs, y :: ys => Value.beq x y && beqArr xs ys
  | _, _ => false

/-- Entry-wise structural equality of key/value lists. -/
def beqObj : List (String × Value) → List (String × Value) → Bool
  | [], [] => true
  | (s, x) :: xs, (t, y) :: ys => s == t && Value.beq x y && beqObj xs ys
  | _, _ => false

end

theorem beqArr_iff_eq (xs ys : List Value)
    (ih : ∀ x ∈ xs, ∀ b, Value.beq x b = true ↔ x = b) :
    beqArr xs ys = true ↔ xs = ys := by
  induction xs generalizing ys with
  | nil => cases ys <;> simp [beqArr]
  | cons x xs ihl =>
    cases ys with
    | nil => simp [beqArr]
    | cons y ys =>
      have hx := ih x (by simp) y
      have hrest := ihl ys (fun z hz b => ih z (by simp [hz]) b)
      simp [beqArr, hx, hrest]

theorem beqObj_iff_eq (xs ys : List (String × Value))
    (ih : ∀ p ∈ xs, ∀ b, Value.beq p.2 b = true ↔ p.2 = b) :
    beqObj xs ys = true ↔ xs = ys := by
  induction xs generalizing ys with
  | nil => cases ys <;> simp [beqObj]
  | cons x xs ihl =>
    cases ys with
    | nil => simp [beqObj]
    | cons y ys =>
      obtain ⟨s, v⟩ := x
      obtain ⟨t, w⟩ := y
      have hx := ih (s, v) (by simp) w
      have hrest := ihl ys (fun z hz b => ih z (by simp [hz]) b)
      simp [beqObj, hx, hrest, and_assoc]

theorem beq_iff_eq_aux : ∀ (n : ℕ) (a b : Value), sizeOf a ≤ n →
    (Value.beq a b = true ↔ a = b) := by
  intro n
  induction n with
  | zero =>
    intro a b h
    exact absurd h (by cases a <;> simp)
  | succ n ih =>
    intro a b h
    cases a with
    | vbool x => cases b <;> simp [Value.beq]
    | vnum x => cases b <;> simp [Value.beq]
    | vstr x => cases b <;> simp [Value.beq]
    | vnil => cases b <;> simp [Value.beq]
    | vtime x => cases b <;> simp [Value.beq]
    | varr xs =>
      cases b with
      | varr ys =>
        have harr : beqArr xs ys = true ↔ xs = ys := by
          refine beqArr_iff_eq xs ys (fun x hx b => ih x b ?_)
          have h1 : sizeOf x < sizeOf xs := List.sizeOf_lt_of_mem hx
          have h2 : sizeOf (Value.varr xs) ≤ n + 1 := h
          simp at h2
          omega
        simp [Value.beq, harr]
      | _ => simp [Value.beq]
    | vobj xs =>
      cases b with
      | vobj ys =>
        have hobj : beqObj xs ys = true ↔ xs = ys := by
          refine beqObj_iff_eq xs ys (fun p hp b => ih p.2 b ?_)
          have h1 : sizeOf p < sizeOf xs := List.sizeOf_lt_of_mem hp
          have h2 : sizeOf p.2 < sizeOf p := by
            obtain ⟨s, v⟩ := p
            simp
          have h3 : sizeOf (Value.vobj xs) ≤ n + 1 := h
          simp at h3
          omega
        simp [Value.beq, hobj]
      | _ => simp [Value.beq]

/-- Structural equality decides propositional equality: `reflect.DeepEqual`
is deep structural equality of the modelled values. -/
theorem beq_iff_eq (a b : Value) : Value.beq a b = true ↔ a = b :=
  beq_iff_eq_aux (sizeOf a) a b le_rfl

instance : DecidableEq Value := fun a b => decidable_of_iff _ (beq_iff_eq a b)

theorem beq_eq_decide (a b : Value) : Value.beq a b = decide (a = b) := by
  by_cases h : a = b
  · subst h
    simp [(beq_iff_eq a a).mpr rfl]
  · simp [h]
    exact Bool.eq_false_iff.mpr (fun ht => h ((beq_iff_eq a b).mp ht))

/-- `base`'s `==` evaluator (`src/gval.go` lines 227–238): if the left value
is an ordered sequence, return true iff some element is deep-equal to the
right value; otherwise return deep equality of the two values.  The Go
function always returns a nil error. -/
def eqOpFn (a b : Value) : Except Err Value :=
  match a with
  | Value.varr xs => Except.ok (Value.vbool (xs.any (fun x => Value.beq x b)))
  | _ => Except.ok (Value.vbool (Value.beq a b))

/-- `base`'s `!=` evaluator (`src/gval.go` lines 239–250): if the left value
is an ordered sequence, return true iff some element is NOT deep-equal to the
right value; otherwise return the negation of deep equality. -/
def neqOpFn (a b : Value) : Except Err Value :=
  match a with
  | Value.varr xs => Except.ok (Value.vbool (xs.any (fun x => !Value.beq x b)))
  | _ => Except.ok (Value.vbool (!Value.beq a b))

theorem any_beq_eq_decide (xs : List Value) (b : Value) :
    xs.any (fun x => Value.beq x b) = decide (∃ x ∈ xs, x = b) := by
  rw [Bool.eq_iff_iff]
  simp [List.any_eq_true, beq_iff_eq]

theorem any_not_beq_eq_decide (xs : List Value) (b : Value) :
    xs.any (fun x => !Value.beq x b) = decide (∃ x ∈ xs, x ≠ b) := by
  rw [Bool.eq_iff_iff]
  simp [List.any_eq_true, beq_eq_decide]

/-- Claim C1: in Base, `==` with an ordered-sequence left operand is true iff
some element of the sequence is structurally (deep) equal to the right
operand; with a non-sequence left operand, `==` is structural deep equality
and `!=` is its negation; and `!=` applies the same left-sequence rule,
element-wise, to the negated comparison. -/
theorem base_equality_semantics : ∀ a b : Value,
    ((∀ xs, a ≠ Value.varr xs) →
      eqOpFn a b = Except.ok (Value.vbool (decide (a = b))) ∧
      neqOpFn a b = Except.ok (Value.vbool (decide (a ≠ b)))) ∧
    (∀ xs, a = Value.varr xs →
      eqOpFn a b = Except.ok (Value.vbool (decide (∃ x ∈ xs, x = b))) ∧
      neqOpFn a b = Except.ok (Value.vbool (decide (∃ x ∈ xs, x ≠ b)))) := by
  intro a b
  constructor
  · intro h
    have hne : (match a with | Value.varr xs => False | _ => True) := by
      cases a <;> first | trivial | exact (h _ rfl)
    cases a <;> try exact absurd rfl (h _)
    all_goals
      simp [eqOpFn, neqOpFn, beq_eq_decide, decide_not]
  · rintro xs rfl
    constructor
    · simp only [eqOpFn, any_beq_eq_decide]
    · simp only [neqOpFn, any_not_beq_eq_decide]

/-- Witness for C1: concrete instances of both the non-sequence case
(`nil == true` is false, `nil != true` is true) and the sequence case
(`[1, 2] == 2` is true because 2 is an element). -/
theorem base_equality_semantics_witness :
    eqOpFn Value.vnil (Value.vbool true) = Except.ok (Value.vbool false) ∧
    neqOpFn Value.vnil (Value.vbool true) = Except.ok (Value.vbool true) ∧
    eqOpFn (Value.varr [Value.vnum 1, Value.vnum 2]) (Value.vnum 2) =
      Except.ok (Value.vbool true) := by
  have h1 := (base_equality_semantics Value.vnil (Value.vbool true)).1
    (fun xs h => Value.noConfusion h)
  have h2 := ((base_equality_semantics (Value.varr [Value.vnum 1, Value.vnum 2])
    (Value.vnum 2)).2 [Value.vnum 1, Value.vnum 2] rfl).1
  refine ⟨?_, ?_, ?_⟩
  · simpa using h1.1
  · simpa using h1.2
  · rw [h2]
    norm_num

/-- Claim C9: in Base, `!=` with an ordered-sequence left operand is not the
negation of `==`: it is true iff at least one element differs from the right
operand.  Hence a sequence holding both an element equal to `b` and an
element different from `b` makes `==` and `!=` simultaneously true, while a
non-empty sequence whose elements all equal `b` makes `==` true and `!=`
false. -/
theorem base_neq_existential_semantics : ∀ (xs : List Value) (b : Value),
    (neqOpFn (Value.varr xs) b = Except.ok (Value.vbool true) ↔ ∃ x ∈ xs, x ≠ b) ∧
    ((∃ x ∈ xs, x = b) → (∃ y ∈ xs, y ≠ b) →
      eqOpFn (Value.varr xs) b = Except.ok (Value.vbool true) ∧
      neqOpFn (Value.varr xs) b = Except.ok (Value.vbool true)) ∧
    (xs ≠ [] → (∀ x ∈ xs, x = b) →
      eqOpFn (Value.varr xs) b = Except.ok (Value.vbool true) ∧
      neqOpFn (Value.varr xs) b = Except.ok (Value.vbool false)) := by
  intro xs b
  have heq : eqOpFn (Value.varr xs) b
      = Except.ok (Value.vbool (decide (∃ x ∈ xs, x = b))) := by
    simp only [eqOpFn, any_beq_eq_decide]
  have hneq : neqOpFn (Value.varr xs) b
      = Except.ok (Value.vbool (decide (∃ x ∈ xs, x ≠ b))) := by
    simp only [neqOpFn, any_not_beq_eq_decide]
  refine ⟨?_, ?_, ?_⟩
  · rw [hneq]
    constructor
    · intro h
      have : decide (∃ x ∈ xs, x ≠ b) = true := by
        have := congrArg (fun r => match r with
          | Except.ok (Value.vbool v) => v
          | _ => false) h
        simpa using this
      exact of_decide_eq_true this
    · intro h
      rw [decide_eq_true h]
  · intro h1 h2
    rw [heq, hneq, decide_eq_true h1, decide_eq_true h2]
    exact ⟨rfl, rfl⟩
  · intro hne hall
    have h1 : ∃ x ∈ xs, x = b := by
      rcases List.exists_mem_of_ne_nil xs hne with ⟨x, hx⟩
      exact ⟨x, hx, hall x hx⟩
    have h2 : ¬∃ x ∈ xs, x ≠ b := by
      rintro ⟨x, hx, hxb⟩
      exact hxb (hall x hx)
    rw [heq, hneq, decide_eq_true h1, decide_eq_false h2]
    exact ⟨rfl, rfl⟩

/-- Witness for C9: for the sequence `[1, 2]` and right operand `1`, both
`==` and `!=` return true; for `[1, 1]` and `1`, `==` is true and `!=` is
false. -/
theorem base_neq_existential_semantics_witness :
    (eqOpFn (Value.varr [Value.vnum 1, Value.vnum 2]) (Value.vnum 1) =
       Except.ok (Value.vbool true) ∧
     neqOpFn (Value.varr [Value.vnum 1, Value.vnum 2]) (Value.vnum 1) =
       Except.ok (Value.vbool true)) ∧
    (eqOpFn (Value.varr [Value.vnum 1, Value.vnum 1]) (Value.vnum 1) =
       Except.ok (Value.vbool true) ∧
     neqOpFn (Value.varr [Value.vnum 1, Value.vnum 1]) (Value.vnum 1) =
       Except.ok (Value.vbool false)) := by
  constructor
  · exact (base_neq_existential_semantics [Value.vnum 1, Value.vnum 2]
      (Value.vnum 1)).2.1
      ⟨Value.vnum 1, by simp, rfl⟩
      ⟨Value.vnum 2, by simp, by norm_num⟩
  · exact (base_neq_existential_semantics [Value.vnum 1, Value.vnum 1]
      (Value.vnum 1)).2.2 (by simp) (by intro x hx; simpa using hx)

/-- Modelled from the spec: `toBool` (§4.B), used by `InfixBoolOperator` and
the ternary evaluator; the coercion itself is not under `src/`.  A boolean
passes; a number is true iff nonzero; the strings "true"/"TRUE" map to true
and "false"/"FALSE" to false; everything else fails. -/
def convertToBool (v : Value) : Option Bool :=
  match v with
  | Value.vbool b => some b
  | Value.vnum q => some (decide (q ≠ 0))
  | Value.vstr s =>
      if s = "true" ∨ s = "TRUE" then some true
      else if s = "false" ∨ s = "FALSE" then some false
      else none
  | _ => none

/-- Modelled from the spec: `toNumber` (§4.B), used by `InfixNumberOperator`
and the numeric prefix operators; the coercion itself is not under `src/`.
Numbers pass through, `true` maps to 1 and `false` to 0, strings are parsed
as numbers (modelled here for plain decimal naturals; no verified claim
exercises the string branch), anything else fails. -/
def convertToFloat (v : Value) : Option ℚ :=
  match v with
  | Value.vnum q => some q
  | Value.vbool true => some 1
  | Value.vbool false => some 0
  | Value.vstr s => (s.toNat?).map (fun n => (n : ℚ))
  | _ => none

/-- Modelled from the spec: `toString` (§4.B), a total default printable
rendering; no verified claim depends on its exact output. -/
def toStringV : Value → String
  | Value.vstr s => s
  | Value.vbool true => "true"
  | Value.vbool false => "false"
  | Value.vnum q => toString q
  | Value.vnil => "<nil>"
  | _ => ""

/-- Keys of the prefix dispatch table: token kinds for literals, operator
lexemes for punctuation, identifier literals for constants and functions,
and the symbolic pseudo-key for the identifier meta handler (spec §4.C). -/
inductive TokenKey where
  | kInt | kFloat | kString | kChar | kRawString
  | kOp : String → TokenKey
  | kIdent : String → TokenKey
  | kIdentMeta
  deriving DecidableEq, Repr

/-- Prefix-table entries.  Handlers whose bodies live outside `src/`
(the literal parsers and the identifier selector-chain handler) are opaque
tags; prefix operators, constants and functions carry their value. -/
inductive PreH where
  | parseNumberH | parseStringH | parseJSONArrayH | parseJSONObjectH
  | parseParenthesesH | parseIdentH
  | opH : (Value → Except Err Value) → PreH
  | constH : Value → PreH
  | funcH : (List Value → Except Err Value) → PreH

/-- Tags for `InfixEvalOperator` entries (regex match / not-match); their
handlers receive raw evaluators and live outside `src/`. -/
inductive EvalTag where
  | regExT | notRegExT
  deriving DecidableEq, Repr

/-- Infix-table entries: a strict two-value evaluator, or a deferred
evaluator-level operator. -/
inductive InfE where
  | fnE : (Value → Value → Except Err Value) → InfE
  | evalE : EvalTag → InfE

/-- Postfix-table entries; the only built-in one is the ternary handler. -/
inductive PostH where
  | parseIfH
  deriving DecidableEq, Repr

/-- Modelled from the spec: the Language value (§3), an immutable bundle of
dispatch tables plus the operator-symbol set.  The concrete `Language` type
and its `NewLanguage` union are not under `src/`; tables are modelled as
lookup functions, so that union is right-biased pointwise override. -/
@[ext] structure Language where
  preT : TokenKey → Option PreH
  infT : String → Option InfE
  scT : String → Option (Value → Value × Bool)
  postT : String → Option PostH
  precT : String → Option ℕ
  opSyms : String → Bool

/-- The empty language: no entries, no operator symbols. -/
def emptyLang : Language where
  preT := fun _ => none
  infT := fun _ => none
  scT := fun _ => none
  postT := fun _ => none
  precT := fun _ => none
  opSyms := fun _ => false

/-- Right-biased choice: take the second table's entry when present. -/
def ror {α : Type _} (a b : Option α) : Option α :=
  match b with
  | some v => some v
  | none => a

@[simp] theorem ror_some_right {α : Type _} (a : Option α) (v : α) :
    ror a (some v) = some v := rfl

@[simp] theorem ror_none_right {α : Type _} (a : Option α) :
    ror a none = a := rfl

@[simp] theorem ror_none_left {α : Type _} (b : Option α) :
    ror none b = b := by cases b <;> rfl

@[simp] theorem ror_self {α : Type _} (a : Option α) : ror a a = a := by
  cases a <;> rfl

theorem ror_assoc {α : Type _} (a b c : Option α) :
    ror (ror a b) c = ror a (ror b c) := by
  cases c <;> cases b <;> rfl

/-- Modelled from the spec: binary language union with right-bias override
per key and union of the operator-symbol sets (§3, §4.C). -/
def lmerge (x y : Language) : Language where
  preT := fun k => ror (x.preT k) (y.preT k)
  infT := fun s => ror (x.infT s) (y.infT s)
  scT := fun s => ror (x.scT s) (y.scT s)
  postT := fun s => ror (x.postT s) (y.postT s)
  precT := fun s => ror (x.precT s) (y.precT s)
  opSyms := fun s => x.opSyms s || y.opSyms s

/-- Modelled from the spec: `newLanguage(parts…)` folds the parts
left-to-right, later entries overriding earlier ones per key (§4.C); the
function itself is not under `src/`. -/
def NewLanguage (ls : List Language) : Language := ls.foldl lmerge emptyLang

/-- Binary union `A ⊕ B`, written through `NewLanguage` as the source does. -/
def lunion (a b : Language) : Language := NewLanguage [a, b]

/-- Builder: prefix table entry for a token key (spec §4.C). -/
def PrefixExtension (k : TokenKey) (h : PreH) : Language :=
  { emptyLang with preT := fun t => if t = k then some h else none }

/-- Builder: prefix operator keyed by its lexeme (spec §4.C). -/
def PrefixOperator (s : String) (f : Value → Except Err Value) : Language :=
  { emptyLang with
    preT := fun t => if t = TokenKey.kOp s then some (PreH.opH f) else none }

/-- Builder: chain-capable prefix entry for identifiers (spec §4.C). -/
def PrefixMetaPrefix (k : TokenKey) (h : PreH) : Language :=
  { emptyLang with preT := fun t => if t = k then some h else none }

/-- Builder: strict infix operator; registers the operator symbol. -/
def InfixOperator (s : String) (f : Value → Value → Except Err Value) : Language :=
  { emptyLang with
    infT := fun t => if t = s then some (InfE.fnE f) else none
    opSyms := fun t => t == s }

/-- Builder: short-circuit predicate attached to a symbol independently of
its infix evaluator (spec §3, §4.C). -/
def InfixShortCircuit (s : String) (p : Value → Value × Bool) : Language :=
  { emptyLang with
    scT := fun t => if t = s then some p else none
    opSyms := fun t => t == s }

/-- Builder: infix operator over numbers, wrapping both operands with
`toNumber`; a failed coercion is a TypeError (spec §4.C). -/
def InfixNumberOperator (s : String) (f : ℚ → ℚ → Except Err Value) : Language :=
  InfixOperator s (fun a b =>
    match convertToFloat a, convertToFloat b with
    | some x, some y => f x y
    | _, _ => Except.error Err.typeError)

/-- Builder: infix operator over strings, wrapping both operands with the
total `toString` rendering (spec §4.C). -/
def InfixTextOperator (s : String) (f : String → String → Except Err Value) : Language :=
  InfixOperator s (fun a b => f (toStringV a) (toStringV b))

/-- Builder: infix operator over booleans, wrapping both operands with
`toBool`; a failed coercion is a TypeError (spec §4.C). -/
def InfixBoolOperator (s : String) (f : Bool → Bool → Except Err Value) : Language :=
  InfixOperator s (fun a b =>
    match convertToBool a, convertToBool b with
    | some x, some y => f x y
    | _, _ => Except.error Err.typeError)

/-- Builder: evaluator-level infix operator (used for the regex operators,
whose handlers live outside `src/` and are modelled as tags). -/
def InfixEvalOperator (s : String) (t : EvalTag) : Language :=
  { emptyLang with
    infT := fun u => if u = s then some (InfE.evalE t) else none
    opSyms := fun u => u == s }

/-- Builder: postfix operator keyed by its lexeme (spec §4.C). -/
def PostfixOperator (s : String) (h : PostH) : Language :=
  { emptyLang with
    postT := fun t => if t = s then some h else none
    opSyms := fun t => t == s }

/-- Builder: sets or overrides the precedence attached to a symbol
(spec §3: precedence is attached to an operator symbol, higher binds
tighter). -/
def Precedence (s : String) (n : ℕ) : Language :=
  { emptyLang with
    precT := fun t => if t = s then some n else none
    opSyms := fun t => t == s }

/-- Builder: registers an identifier as a constant (spec §4.C). -/
def Constant (name : String) (v : Value) : Language :=
  { emptyLang with
    preT := fun t => if t = TokenKey.kIdent name then some (PreH.constH v) else none }

/-- Builder: registers an identifier as a callable function (spec §4.C). -/
def Function (name : String) (f : List Value → Except Err Value) : Language :=
  { emptyLang with
    preT := fun t => if t = TokenKey.kIdent name then some (PreH.funcH f) else none }

/-- Truncation toward zero of a rational (the rounding Go applies when
converting `float64` to an integer type). -/
def qtrunc (q : ℚ) : ℤ := q.num / q.den

/-- Two's-complement wrap of an integer into the `int64` range. -/
def wrap64 (n : ℤ) : ℤ := (n + 2 ^ 63) % 2 ^ 64 - 2 ^ 63

/-- Go conversion `int64(x)` of a `float64`: truncation toward zero, with
out-of-range inputs modelled by two's-complement wrap. -/
def toInt64 (q : ℚ) : ℤ := wrap64 (qtrunc q)

/-- Go conversion `uint64(x)` of a `float64`, as the unsigned bit count used
by the shift operators. -/
def toUns64 (q : ℚ) : ℕ := ((qtrunc q) % 2 ^ 64).toNat

/-- Unsigned 64-bit pattern of an `int64` value. -/
def toPat (n : ℤ) : ℕ := (n % 2 ^ 64).toNat

/-- The `int64` value of an unsigned 64-bit pattern. -/
def fromPat (u : ℕ) : ℤ := if u < 2 ^ 63 then (u : ℤ) else (u : ℤ) - 2 ^ 64

/-- `int64` bitwise xor. -/
def xor64 (a b : ℤ) : ℤ := fromPat (Nat.xor (toPat a) (toPat b))

/-- `int64` bitwise and. -/
def and64 (a b : ℤ) : ℤ := fromPat (Nat.land (toPat a) (toPat b))

/-- `int64` bitwise or. -/
def or64 (a b : ℤ) : ℤ := fromPat (Nat.lor (toPat a) (toPat b))

/-- `int64` left shift by an unsigned count (counts ≥ 64 shift everything
out, as in Go). -/
def shl64 (a : ℤ) (n : ℕ) : ℤ := wrap64 (a * 2 ^ n)

/-- `int64` arithmetic right shift (rounds toward negative infinity). -/
def shr64 (a : ℤ) (n : ℕ) : ℤ := Int.fdiv a (2 ^ n)

/-- `int64` bitwise complement: `^x = -x - 1`. -/
def bnot64 (a : ℤ) : ℤ := wrap64 (-(a + 1))

/-- Go `math.Mod(a, b) = a - trunc(a/b)*b`, exact on the rational model. -/
def goMod (a b : ℚ) : ℚ := a - ((qtrunc (a / b) : ℤ) : ℚ) * b

/-- Go `math.Pow` restricted to the regime the verified claims exercise:
exact on nonnegative integer exponents; other exponents are outside the
rational model and map to 0 here. -/
def goPow (a b : ℚ) : ℚ :=
  if 0 ≤ b.num ∧ b.den = 1 then a ^ b.num.toNat else 0

/-- The unary minus of `base` (`src/gval.go` lines 212–218): coerce to
number and negate; a failed coercion is a TypeError. -/
def negOp (v : Value) : Except Err Value :=
  match convertToFloat v with
  | some q => Except.ok (Value.vnum (-q))
  | none => Except.error Err.typeError

/-- The `~` prefix operator of `bitmask` (`src/gval.go` lines 167–173):
coerce to number, truncate to `int64`, complement, widen back. -/
def bitNotOp (v : Value) : Except Err Value :=
  match convertToFloat v with
  | some q => Except.ok (Value.vnum ((bnot64 (toInt64 q) : ℤ) : ℚ))
  | none => Except.error Err.typeError

/-- The `!` prefix operator of `propositionalLogic` (`src/gval.go` lines
190–196): coerce to bool and negate; a failed coercion is a TypeError. -/
def notOp (v : Value) : Except Err Value :=
  match convertToBool v with
  | some b => Except.ok (Value.vbool (!b))
  | none => Except.error Err.typeError

/-- The `&&` short-circuit predicate (`src/gval.go` line 198): stop with
false when the left operand is the boolean false. -/
def scAnd (a : Value) : Value × Bool :=
  (Value.vbool false, decide (a = Value.vbool false))

/-- The `||` short-circuit predicate (`src/gval.go` line 200): stop with
true when the left operand is the boolean true. -/
def scOr (a : Value) : Value × Bool :=
  (Value.vbool true, decide (a = Value.vbool true))

/-- Modelled from the spec: the `in` operator evaluator (`inArray` is
referenced at `src/gval.go` line 89 but defined outside `src/`): `a in b`
is true iff `b` is an ordered sequence with an element structurally equal
to `a`; a non-sequence right operand is a TypeError. -/
def inArray (a b : Value) : Except Err Value :=
  match b with
  | Value.varr xs => Except.ok (Value.vbool (xs.any (fun x => Value.beq x a)))
  | _ => Except.error Err.typeError

/-- The `??` short-circuit predicate (`src/gval.go` lines 91–93): stop with
the left operand when it is neither the boolean false nor nil. -/
def qqSC (a : Value) : Value × Bool :=
  (a, decide (a ≠ Value.vbool false ∧ a ≠ Value.vnil))

/-- The `??` strict evaluator (`src/gval.go` lines 94–99): return the right
operand when the left is the boolean false or nil, else the left. -/
def qqOpFn (a b : Value) : Except Err Value :=
  if a = Value.vbool false ∨ a = Value.vnil then Except.ok b else Except.ok a

/-- A host-provided date parsing capability: given a layout string and an
input string, parse to a time point or fail (modelling
`time.ParseInLocation`, which the spec places outside the core). -/
def TimeParser : Type := String → String → Option ℤ

/-- Layout value of Go `time.ANSIC`. -/
def fmtANSIC : String := "Mon Jan _2 15:04:05 2006"

/-- Layout value of Go `time.UnixDate`. -/
def fmtUnixDate : String := "Mon Jan _2 15:04:05 MST 2006"

/-- Layout value of Go `time.RubyDate`. -/
def fmtRubyDate : String := "Mon Jan 02 15:04:05 -0700 2006"

/-- Layout value of Go `time.Kitchen`. -/
def fmtKitchen : String := "3:04PM"

/-- Layout value of Go `time.RFC3339`. -/
def fmtRFC3339 : String := "2006-01-02T15:04:05Z07:00"

/-- Layout value of Go `time.RFC3339Nano`. -/
def fmtRFC3339Nano : String := "2006-01-02T15:04:05.999999999Z07:00"

/-- The format list the `date` function iterates, in source order
(`src/gval.go` lines 111–126). -/
def goDateFormats : List String :=
  [fmtANSIC, fmtUnixDate, fmtRubyDate, fmtKitchen, fmtRFC3339, fmtRFC3339Nano,
   "2006-01-02",
   "2006-01-02 15:04",
   "2006-01-02 15:04:05",
   "2006-01-02 15:04:05-07:00",
   "2006-01-02T15Z0700",
   "2006-01-02T15:04Z0700",
   "2006-01-02T15:04:05Z0700",
   "2006-01-02T15:04:05.999999999Z0700"]

/-- The date format sequence as the spec enumerates it: ANSIC, Unix date,
Ruby date, Kitchen, RFC3339, RFC3339-nano, then the ISO-8601 variants (day;
day with minutes; with seconds; with seconds and timezone; and the T-forms
with hour, minutes, seconds and nanoseconds, with timezone). -/
def specDateFormats : List String :=
  [fmtANSIC, fmtUnixDate, fmtRubyDate, fmtKitchen, fmtRFC3339, fmtRFC3339Nano,
   "2006-01-02",
   "2006-01-02 15:04",
   "2006-01-02 15:04:05",
   "2006-01-02 15:04:05-07:00",
   "2006-01-02T15Z0700",
   "2006-01-02T15:04Z0700",
   "2006-01-02T15:04:05Z0700",
   "2006-01-02T15:04:05.999999999Z0700"]

/-- The loop body of the `date` function: try each format in order and
return the first successful parse. -/
def dateLoop (tp : TimeParser) (s : String) : List String → Except Err Value
  | [] => Except.error Err.functionError
  | f :: rest =>
      match tp f s with
      | some t => Except.ok (Value.vtime t)
      | none => dateLoop tp s rest

/-- The `date` function registered by `full` (`src/gval.go` lines 103–133):
exactly one string argument, then first-match over the format list; both a
wrong argument shape and format exhaustion are function errors. -/
def dateGo (tp : TimeParser) (args : List Value) : Except Err Value :=
  match args with
  | [Value.vstr s] => dateLoop tp s goDateFormats
  | _ => Except.error Err.functionError

/-- The `base` language (`src/gval.go` lines 209–309): literal prefixes,
unary minus, the true/false constants, deep-equality `==`/`!=`, parentheses,
the whole precedence table, and the identifier meta prefix. -/
def base : Language := NewLanguage
  [PrefixExtension TokenKey.kInt PreH.parseNumberH,
   PrefixExtension TokenKey.kFloat PreH.parseNumberH,
   PrefixOperator "-" negOp,
   PrefixExtension TokenKey.kString PreH.parseStringH,
   PrefixExtension TokenKey.kChar PreH.parseStringH,
   PrefixExtension TokenKey.kRawString PreH.parseStringH,
   Constant "true" (Value.vbool true),
   Constant "false" (Value.vbool false),
   InfixOperator "==" eqOpFn,
   InfixOperator "!=" neqOpFn,
   PrefixExtension (TokenKey.kOp "(") PreH.parseParenthesesH,
   Precedence "??" 0,
   Precedence "||" 20,
   Precedence "&&" 21,
   Precedence "==" 40,
   Precedence "!=" 40,
   Precedence ">" 40,
   Precedence ">=" 40,
   Precedence "<" 40,
   Precedence "<=" 40,
   Precedence "=~" 40,
   Precedence "!~" 40,
   Precedence "in" 40,
   Precedence "^" 60,
   Precedence "&" 60,
   Precedence "|" 60,
   Precedence "<<" 90,
   Precedence ">>" 90,
   Precedence "+" 120,
   Precedence "-" 120,
   Precedence "*" 150,
   Precedence "/" 150,
   Precedence "%" 150,
   Precedence "**" 200,
   PrefixMetaPrefix TokenKey.kIdentMeta PreH.parseIdentH]

/-- The `arithmetic` language (`src/gval.go` lines 141–158).  Go `float64`
arithmetic is modelled by exact rationals: `/` is rational division (the
float infinities at zero divisors are outside the model), `%` is `math.Mod`
and `**` is `math.Pow` as modelled above. -/
def arithmetic : Language := NewLanguage
  [InfixNumberOperator "+" (fun a b => Except.ok (Value.vnum (a + b))),
   InfixNumberOperator "-" (fun a b => Except.ok (Value.vnum (a - b))),
   InfixNumberOperator "*" (fun a b => Except.ok (Value.vnum (a * b))),
   InfixNumberOperator "/" (fun a b => Except.ok (Value.vnum (a / b))),
   InfixNumberOperator "%" (fun a b => Except.ok (Value.vnum (goMod a b))),
   InfixNumberOperator "**" (fun a b => Except.ok (Value.vnum (goPow a b))),
   InfixNumberOperator ">" (fun a b => Except.ok (Value.vbool (decide (a > b)))),
   InfixNumberOperator ">=" (fun a b => Except.ok (Value.vbool (decide (a ≥ b)))),
   InfixNumberOperator "<" (fun a b => Except.ok (Value.vbool (decide (a < b)))),
   InfixNumberOperator "<=" (fun a b => Except.ok (Value.vbool (decide (a ≤ b)))),
   InfixNumberOperator "==" (fun a b => Except.ok (Value.vbool (decide (a = b)))),
   InfixNumberOperator "!=" (fun a b => Except.ok (Value.vbool (decide (a ≠ b)))),
   base]

/-- The `bitmask` language (`src/gval.go` lines 160–174): every operator
truncates its `float64` operands to `int64`, computes on 64-bit integers,
and widens the result back. -/
def bitmask : Language := NewLanguage
  [InfixNumberOperator "^" (fun a b =>
     Except.ok (Value.vnum ((xor64 (toInt64 a) (toInt64 b) : ℤ) : ℚ))),
   InfixNumberOperator "&" (fun a b =>
     Except.ok (Value.vnum ((and64 (toInt64 a) (toInt64 b) : ℤ) : ℚ))),
   InfixNumberOperator "|" (fun a b =>
     Except.ok (Value.vnum ((or64 (toInt64 a) (toInt64 b) : ℤ) : ℚ))),
   InfixNumberOperator "<<" (fun a b =>
     Except.ok (Value.vnum ((shl64 (toInt64 a) (toUns64 b) : ℤ) : ℚ))),
   InfixNumberOperator ">>" (fun a b =>
     Except.ok (Value.vnum ((shr64 (toInt64 a) (toUns64 b) : ℤ) : ℚ))),
   PrefixOperator "~" bitNotOp]

/-- The `text` language (`src/gval.go` lines 176–187): string concatenation,
lexicographic comparisons, and the deferred regex operators. -/
def text : Language := NewLanguage
  [InfixTextOperator "+" (fun a b => Except.ok (Value.vstr (a ++ b))),
   InfixTextOperator "<" (fun a b => Except.ok (Value.vbool (decide (a < b)))),
   InfixTextOperator "<=" (fun a b => Except.ok (Value.vbool (decide (a ≤ b)))),
   InfixTextOperator ">" (fun a b => Except.ok (Value.vbool (decide (a > b)))),
   InfixTextOperator ">=" (fun a b => Except.ok (Value.vbool (decide (a ≥ b)))),
   InfixEvalOperator "=~" EvalTag.regExT,
   InfixEvalOperator "!~" EvalTag.notRegExT,
   base]

/-- The `propositionalLogic` language (`src/gval.go` lines 189–207). -/
def propositionalLogic : Language := NewLanguage
  [PrefixOperator "!" notOp,
   InfixShortCircuit "&&" scAnd,
   InfixBoolOperator "&&" (fun a b => Except.ok (Value.vbool (a && b))),
   InfixShortCircuit "||" scOr,
   InfixBoolOperator "||" (fun a b => Except.ok (Value.vbool (a || b))),
   InfixBoolOperator "==" (fun a b => Except.ok (Value.vbool (a == b))),
   InfixBoolOperator "!=" (fun a b => Except.ok (Value.vbool (a != b))),
   base]

/-- The `ljson` language (`src/gval.go` lines 136–139): JSON array and
object literal prefixes. -/
def ljson : Language := NewLanguage
  [PrefixExtension (TokenKey.kOp "[") PreH.parseJSONArrayH,
   PrefixExtension (TokenKey.kOp "\x7b") PreH.parseJSONObjectH]

/-- The `full` language (`src/gval.go` lines 87–134): the union of
arithmetic, bitmask, text, propositional logic and JSON, extended with the
`in` operator, the `??` operator (short-circuit plus strict entry), the
postfix ternary `?` and the `date` function.  Parameterized by the
host-provided date parsing capability. -/
def full (tp : TimeParser) : Language := NewLanguage
  [arithmetic, bitmask, text, propositionalLogic, ljson,
   InfixOperator "in" inArray,
   InfixShortCircuit "??" qqSC,
   InfixOperator "??" qqOpFn,
   PostfixOperator "?" PostH.parseIfH,
   Function "date" (dateGo tp)]

/-- The language-selection step of `Evaluate` (`src/gval.go` lines 19–25):
the full language when no extensions are given, otherwise the union of full
with the extensions in order. -/
def evaluateLang (tp : TimeParser) (opts : List Language) : Language :=
  if opts.length > 0 then NewLanguage (full tp :: opts) else full tp

/-- The extension bundle named by the spec as the set added on top of the
five sub-languages. -/
def fullExtras (tp : TimeParser) : Language := NewLanguage
  [InfixOperator "in" inArray,
   InfixShortCircuit "??" qqSC,
   InfixOperator "??" qqOpFn,
   PostfixOperator "?" PostH.parseIfH,
   Function "date" (dateGo tp)]

/-- The spec's description of Full, written with binary unions exactly as
stated: Arithmetic, then Bitmask, Text, PropositionalLogic, JSON, then the
extras bundle. -/
def specFull (tp : TimeParser) : Language :=
  lunion (lunion (lunion (lunion (lunion arithmetic bitmask) text)
    propositionalLogic) ljson) (fullExtras tp)

/-- Tokens of the expression sub-grammar the parser model covers: number
literals and operator symbols. -/
inductive Tok where
  | tnum : ℚ → Tok
  | tsym : String → Tok
  deriving DecidableEq, Repr

/-- Parsed expression trees over that sub-grammar. -/
inductive Expr where
  | enum : ℚ → Expr
  | ebin : String → Expr → Expr → Expr
  deriving DecidableEq, Repr

mutual

/-- Modelled from the spec: the Pratt / precedence-climbing parser core
(§4.D); the parser itself is not under `src/`.  `parseExpression minPrec`
takes the prefix denotation (a number literal here) and enters the led
loop.  Fuel only forces termination; it is never the reason a well-formed
input fails. -/
def parseExpression (prec : String → Option ℕ) :
    ℕ → ℕ → List Tok → Option (Expr × List Tok)
  | 0, _, _ => none
  | Nat.succ fuel, minPrec, toks =>
      match toks with
      | Tok.tnum q :: rest => ledLoop prec fuel minPrec (Expr.enum q) rest
      | _ => none

/-- Modelled from the spec: the led loop (§4.D).  While the next token is an
operator whose precedence is at least `minPrec`, consume it and parse the
right side — at `prec + 1` for left-associative operators, at `prec` for the
right-associative `**`. -/
def ledLoop (prec : String → Option ℕ) :
    ℕ → ℕ → Expr → List Tok → Option (Expr × List Tok)
  | 0, _, _, _ => none
  | Nat.succ fuel, minPrec, left, toks =>
      match toks with
      | Tok.tsym s :: rest =>
          match prec s with
          | some p =>
              if minPrec ≤ p then
                match parseExpression prec fuel (if s = "**" then p else p + 1) rest with
                | some (right, rest2) =>
                    ledLoop prec fuel minPrec (Expr.ebin s left right) rest2
                | none => none
              else some (left, toks)
          | none => some (left, toks)
      | _ => some (left, toks)

end

/-- Parse a complete token list as one expression at minimum precedence 0,
requiring all tokens to be consumed. -/
def parseTop (prec : String → Option ℕ) (fuel : ℕ) (toks : List Tok) : Option Expr :=
  match parseExpression prec fuel 0 toks with
  | some (e, []) => some e
  | _ => none

/-- Evaluate a parsed tree with the strict infix evaluators registered in
the `arithmetic` language. -/
def evalArith : Expr → Option Value
  | Expr.enum q => some (Value.vnum q)
  | Expr.ebin op l r =>
      match evalArith l, evalArith r with
      | some a, some b =>
          match arithmetic.infT op with
          | some (InfE.fnE f) =>
              match f a b with
              | Except.ok v => some v
              | Except.error _ => none
          | _ => none
      | _, _ => none

/-- Modelled from the spec: evaluation of a strict infix node (§4.E).  The
left value is given; if a short-circuit predicate is registered and reports
stop, its result is returned and the right operand is never evaluated —
the returned flag records whether the right evaluator ran. -/
def evalInfixStrict (sc : Option (Value → Value × Bool))
    (f : Value → Value → Except Err Value) (a : Value)
    (rb : Unit → Except Err Value) : Except Err Value × Bool :=
  match sc with
  | some p =>
      match p a with
      | (r, true) => (Except.ok r, false)
      | (_, false) =>
          match rb () with
          | Except.ok b => (f a b, true)
          | Except.error e => (Except.error e, true)
  | none =>
      match rb () with
      | Except.ok b => (f a b, true)
      | Except.error e => (Except.error e, true)

/-- Modelled from the spec: dispatch of an infix symbol through a language's
tables (§4.E).  Only strict entries are dispatched here; evaluator-level
entries (the regex operators) follow a deferred path outside this model,
and an unregistered symbol is an UnknownOperator error. -/
def runBinOp (L : Language) (sym : String) (a : Value)
    (rb : Unit → Except Err Value) : Except Err Value × Bool :=
  match L.infT sym with
  | some (InfE.fnE f) => evalInfixStrict (L.scT sym) f a rb
  | _ => (Except.error Err.unknownOperator, false)

/-- Modelled from the spec: the ternary evaluator (§4.E): evaluate the
condition, coerce to bool, and run exactly the corresponding branch; a
failed coercion is a TypeError and runs neither branch.  The two flags
record whether the then- and else-evaluators ran. -/
def evalTernary (c : Value) (t e : Unit → Except Err Value) :
    Except Err Value × Bool × Bool :=
  match convertToBool c with
  | none => (Except.error Err.typeError, false, false)
  | some true => (t (), true, false)
  | some false => (e (), false, true)

/-- The precedence table of the built-in languages, as symbol/level pairs in
source order (`src/gval.go` lines 277–306). -/
def precPairs : List (String × ℕ) :=
  [("??", 0), ("||", 20), ("&&", 21),
   ("==", 40), ("!=", 40), (">", 40), (">=", 40), ("<", 40), ("<=", 40),
   ("=~", 40), ("!~", 40), ("in", 40),
   ("^", 60), ("&", 60), ("|", 60),
   ("<<", 90), (">>", 90),
   ("+", 120), ("-", 120),
   ("*", 150), ("/", 150), ("%", 150),
   ("**", 200)]

/-- The symbols carrying a precedence entry in the built-in languages. -/
def precSyms : List String :=
  ["??", "||", "&&", "==", "!=", ">", ">=", "<", "<=", "=~", "!~", "in",
   "^", "&", "|", "<<", ">>", "+", "-", "*", "/", "%", "**"]

theorem lmerge_assoc (a b c : Language) :
    lmerge (lmerge a b) c = lmerge a (lmerge b c) := by
  refine Language.ext ?_ ?_ ?_ ?_ ?_ ?_
  · funext k
    exact ror_assoc _ _ _
  · funext s
    exact ror_assoc _ _ _
  · funext s
    exact ror_assoc _ _ _
  · funext s
    exact ror_assoc _ _ _
  · funext s
    exact ror_assoc _ _ _
  · funext s
    exact Bool.or_assoc _ _ _

theorem lmerge_empty_left (x : Language) : lmerge emptyLang x = x := by
  refine Language.ext ?_ ?_ ?_ ?_ ?_ ?_
  · funext k
    exact ror_none_left _
  · funext s
    exact ror_none_left _
  · funext s
    exact ror_none_left _
  · funext s
    exact ror_none_left _
  · funext s
    exact ror_none_left _
  · funext s
    exact Bool.false_or _

theorem lmerge_empty_right (x : Language) : lmerge x emptyLang = x := by
  refine Language.ext ?_ ?_ ?_ ?_ ?_ ?_
  · funext k
    exact ror_none_right _
  · funext s
    exact ror_none_right _
  · funext s
    exact ror_none_right _
  · funext s
    exact ror_none_right _
  · funext s
    exact ror_none_right _
  · funext s
    exact Bool.or_false _

theorem lmerge_self (x : Language) : lmerge x x = x := by
  refine Language.ext ?_ ?_ ?_ ?_ ?_ ?_
  · funext k
    exact ror_self _
  · funext s
    exact ror_self _
  · funext s
    exact ror_self _
  · funext s
    exact ror_self _
  · funext s
    exact ror_self _
  · funext s
    exact Bool.or_self _

theorem NewLanguage_cons (x : Language) (ls : List Language) :
    NewLanguage (x :: ls) = ls.foldl lmerge x := by
  rw [NewLanguage, List.foldl_cons, lmerge_empty_left]

theorem lunion_eq_lmerge (a b : Language) : lunion a b = lmerge a b := by
  rw [lunion, NewLanguage_cons, List.foldl_cons, List.foldl_nil]

/-- Claim C8: the binary language union is associative; it is right-biased
on every dispatch table (an entry of the right language wins); the
operator-symbol set of a union is the union of the symbol sets; and union
is idempotent. -/
theorem language_union_algebra : ∀ (a b c : Language) (s : String) (k : TokenKey),
    (lunion (lunion a b) c = lunion a (lunion b c)) ∧
    (∀ h, b.preT k = some h → (lunion a b).preT k = some h) ∧
    (∀ e, b.infT s = some e → (lunion a b).infT s = some e) ∧
    (∀ p, b.scT s = some p → (lunion a b).scT s = some p) ∧
    (∀ h, b.postT s = some h → (lunion a b).postT s = some h) ∧
    (∀ n, b.precT s = some n → (lunion a b).precT s = some n) ∧
    ((lunion a b).opSyms s = (a.opSyms s || b.opSyms s)) ∧
    (lunion a a = a) := by
  intro a b c s k
  refine ⟨?_, ?_, ?_, ?_, ?_, ?_, ?_, ?_⟩
  · rw [lunion_eq_lmerge, lunion_eq_lmerge, lunion_eq_lmerge, lunion_eq_lmerge,
      lmerge_assoc]
  · intro h hh
    rw [lunion_eq_lmerge]
    show ror (a.preT k) (b.preT k) = some h
    rw [hh]
    rfl
  · intro e he
    rw [lunion_eq_lmerge]
    show ror (a.infT s) (b.infT s) = some e
    rw [he]
    rfl
  · intro p hp
    rw [lunion_eq_lmerge]
    show ror (a.scT s) (b.scT s) = some p
    rw [hp]
    rfl
  · intro h hh
    rw [lunion_eq_lmerge]
    show ror (a.postT s) (b.postT s) = some h
    rw [hh]
    rfl
  · intro n hn
    rw [lunion_eq_lmerge]
    show ror (a.precT s) (b.precT s) = some n
    rw [hn]
    rfl
  · rw [lunion_eq_lmerge]
    rfl
  · rw [lunion_eq_lmerge, lmerge_self]

/-- Witness for C8: overriding a precedence entry by union really takes the
right language's value. -/
theorem language_union_algebra_witness :
    (Precedence "**" 7).precT "**" = some 7 ∧
    (lunion (Precedence "**" 200) (Precedence "**" 7)).precT "**" = some 7 := by
  refine ⟨rfl, ?_⟩
  exact (language_union_algebra (Precedence "**" 200) (Precedence "**" 7)
    emptyLang "**" TokenKey.kInt).2.2.2.2.2.1 7 rfl

/-- Claim C2: `Evaluate` selects the full language when no extensions are
given, and otherwise folds the extensions onto full in order; and the full
language is exactly the spec's union of Arithmetic, Bitmask, Text,
PropositionalLogic and JSON extended with `in`, `??`, the postfix ternary
and `date`. -/
theorem evaluate_full_language_composition : ∀ (tp : TimeParser) (exts : List Language),
    (evaluateLang tp [] = full tp) ∧
    (evaluateLang tp exts = exts.foldl lmerge (full tp)) ∧
    (full tp = specFull tp) := by
  intro tp exts
  refine ⟨by simp [evaluateLang], ?_, ?_⟩
  · cases exts with
    | nil => simp [evaluateLang]
    | cons e es =>
      rw [evaluateLang, if_pos (by simp), NewLanguage_cons]
  · simp only [full, specFull, fullExtras, lunion, NewLanguage, List.foldl_cons,
      List.foldl_nil, lmerge_empty_left, lmerge_assoc]

@[simp] theorem lmerge_precT (a b : Language) (s : String) :
    (lmerge a b).precT s = ror (a.precT s) (b.precT s) := rfl

@[simp] theorem emptyLang_precT (s : String) : emptyLang.precT s = none := rfl

@[simp] theorem PrefixExtension_precT (k : TokenKey) (h : PreH) (s : String) :
    (PrefixExtension k h).precT s = none := rfl

@[simp] theorem PrefixOperator_precT (t : String) (f : Value → Except Err Value)
    (s : String) : (PrefixOperator t f).precT s = none := rfl

@[simp] theorem PrefixMetaPrefix_precT (k : TokenKey) (h : PreH) (s : String) :
    (PrefixMetaPrefix k h).precT s = none := rfl

@[simp] theorem InfixOperator_precT (t : String)
    (f : Value → Value → Except Err Value) (s : String) :
    (InfixOperator t f).precT s = none := rfl

@[simp] theorem InfixShortCircuit_precT (t : String) (p : Value → Value × Bool)
    (s : String) : (InfixShortCircuit t p).precT s = none := rfl

@[simp] theorem InfixNumberOperator_precT (t : String)
    (f : ℚ → ℚ → Except Err Value) (s : String) :
    (InfixNumberOperator t f).precT s = none := rfl

@[simp] theorem InfixTextOperator_precT (t : String)
    (f : String → String → Except Err Value) (s : String) :
    (InfixTextOperator t f).precT s = none := rfl

@[simp] theorem InfixBoolOperator_precT (t : String)
    (f : Bool → Bool → Except Err Value) (s : String) :
    (InfixBoolOperator t f).precT s = none := rfl

@[simp] theorem InfixEvalOperator_precT (t : String) (e : EvalTag) (s : String) :
    (InfixEvalOperator t e).precT s = none := rfl

@[simp] theorem PostfixOperator_precT (t : String) (h : PostH) (s : String) :
    (PostfixOperator t h).precT s = none := rfl

@[simp] theorem Constant_precT (n : String) (v : Value) (s : String) :
    (Constant n v).precT s = none := rfl

@[simp] theorem Function_precT (n : String) (f : List Value → Except Err Value)
    (s : String) : (Function n f).precT s = none := rfl

@[simp] theorem Precedence_precT (t : String) (n : ℕ) (s : String) :
    (Precedence t n).precT s = if s = t then some n else none := rfl

theorem arithmetic_precT (s : String) : arithmetic.precT s = base.precT s := by
  simp [arithmetic, NewLanguage, List.foldl_cons, List.foldl_nil]

theorem bitmask_precT (s : String) : bitmask.precT s = none := by
  simp [bitmask, NewLanguage, List.foldl_cons, List.foldl_nil]

theorem text_precT (s : String) : text.precT s = base.precT s := by
  simp [text, NewLanguage, List.foldl_cons, List.foldl_nil]

theorem propositionalLogic_precT (s : String) :
    propositionalLogic.precT s = base.precT s := by
  simp [propositionalLogic, NewLanguage, List.foldl_cons, List.foldl_nil]

theorem ljson_precT (s : String) : ljson.precT s = none := by
  simp [ljson, NewLanguage, List.foldl_cons, List.foldl_nil]

theorem full_precT (tp : TimeParser) (s : String) :
    (full tp).precT s = base.precT s := by
  simp [full, NewLanguage, List.foldl_cons, List.foldl_nil, arithmetic_precT,
    bitmask_precT, text_precT, propositionalLogic_precT, ljson_precT]

/-- Claim C3: the precedence assigned to operator symbols in the built-in
languages is exactly the table `?? = 0`, `|| = 20`, `&& = 21`, the
comparisons and `in` at 40, `^`, `&`, `|` at 60, shifts at 90, additive
operators at 120, multiplicative at 150, `** = 200` — carried by `base` and
therefore shared verbatim by every built-in language that embeds `base`
(full, arithmetic, text, propositionalLogic), while `bitmask` and `ljson`
assign none of their own; no other symbol has a precedence.  Higher numbers
bind tighter: under the parser model, `1 + 2 * 3` groups as
`1 + (2 * 3)`. -/
theorem builtin_precedence_table : ∀ (tp : TimeParser),
    (precPairs.map Prod.fst = precSyms) ∧
    (∀ p ∈ precPairs, base.precT p.1 = some p.2) ∧
    (∀ s, s ∉ precSyms → base.precT s = none) ∧
    ((full tp).precT = base.precT) ∧
    (arithmetic.precT = base.precT) ∧
    (text.precT = base.precT) ∧
    (propositionalLogic.precT = base.precT) ∧
    (∀ s, bitmask.precT s = none) ∧
    (∀ s, ljson.precT s = none) ∧
    (parseTop base.precT 32 [Tok.tnum 1, Tok.tsym "+", Tok.tnum 2, Tok.tsym "*", Tok.tnum 3]
      = some (Expr.ebin "+" (Expr.enum 1) (Expr.ebin "*" (Expr.enum 2) (Expr.enum 3)))) ∧
    (evalArith (Expr.ebin "+" (Expr.enum 1) (Expr.ebin "*" (Expr.enum 2) (Expr.enum 3)))
      = some (Value.vnum 7)) := by
  intro tp
  refine ⟨rfl, ?_, ?_, funext (full_precT tp), funext arithmetic_precT,
    funext text_precT, funext propositionalLogic_precT, bitmask_precT,
    ljson_precT, ?_, ?_⟩
  · intro p hp
    fin_cases hp <;> rfl
  · intro s hs
    simp only [precSyms, List.mem_cons, List.not_mem_nil, or_false] at hs
    push_neg at hs
    obtain ⟨h1, h2, h3, h4, h5, h6, h7, h8, h9, h10, h11, h12, h13, h14, h15,
      h16, h17, h18, h19, h20, h21, h22, h23⟩ := hs
    simp [base, NewLanguage, List.foldl_cons, List.foldl_nil,
      h1, h2, h3, h4, h5, h6, h7, h8, h9, h10, h11, h12, h13, h14, h15,
      h16, h17, h18, h19, h20, h21, h22, h23]
  · rfl
  · show some (Value.vnum (1 + 2 * 3)) = some (Value.vnum 7)
    norm_num

/-- Witness for C3: `**` carries precedence 200 in `base` and in `full`,
and an unregistered symbol carries none. -/
theorem builtin_precedence_table_witness :
    base.precT "**" = some 200 ∧
    (full (fun _ _ => none)).precT "**" = some 200 ∧
    base.precT "@@" = none := by
  have h := builtin_precedence_table (fun _ _ => none)
  refine ⟨h.2.1 ("**", 200) (by simp [precPairs]), ?_, h.2.2.1 "@@" (by decide)⟩
  rw [congrFun h.2.2.2.1 "**"]
  exact h.2.1 ("**", 200) (by simp [precPairs])

/-- Claim C7: `**` parses right-associatively (the right side is parsed at
the operator's own precedence), so `2 ** 3 ** 2` groups as `2 ** (3 ** 2)`
and evaluates to 512; the left-associated grouping would give 64; and every
other arithmetic operator groups left-associatively. -/
theorem power_right_associativity :
    (parseTop base.precT 32
        [Tok.tnum 2, Tok.tsym "**", Tok.tnum 3, Tok.tsym "**", Tok.tnum 2]
      = some (Expr.ebin "**" (Expr.enum 2)
          (Expr.ebin "**" (Expr.enum 3) (Expr.enum 2)))) ∧
    (evalArith (Expr.ebin "**" (Expr.enum 2)
        (Expr.ebin "**" (Expr.enum 3) (Expr.enum 2))) = some (Value.vnum 512)) ∧
    (evalArith (Expr.ebin "**" (Expr.ebin "**" (Expr.enum 2) (Expr.enum 3))
        (Expr.enum 2)) = some (Value.vnum 64)) ∧
    (∀ op ∈ ["+", "-", "*", "/", "%"], ∀ a b c : ℚ,
      parseTop base.precT 32
          [Tok.tnum a, Tok.tsym op, Tok.tnum b, Tok.tsym op, Tok.tnum c]
        = some (Expr.ebin op (Expr.ebin op (Expr.enum a) (Expr.enum b))
            (Expr.enum c))) := by
  refine ⟨rfl, rfl, rfl, ?_⟩
  intro op hop a b c
  fin_cases hop <;> rfl

/-- Witness for C7: the left-associativity clause at `+` with 1, 2, 3. -/
theorem power_right_associativity_witness :
    parseTop base.precT 32
        [Tok.tnum 1, Tok.tsym "+", Tok.tnum 2, Tok.tsym "+", Tok.tnum 3]
      = some (Expr.ebin "+" (Expr.ebin "+" (Expr.enum 1) (Expr.enum 2))
          (Expr.enum 3)) :=
  power_right_associativity.2.2.2 "+" (by simp) 1 2 3

/-- Claim C4: `a ?? b` returns `a` whenever `a` is neither the boolean false
nor nil — and then the right operand is never evaluated (the result is
independent of `rb` and the evaluation flag is false) — and returns the
right operand's result when `a` is the boolean false or nil. -/
theorem coalescing_operator_semantics : ∀ (tp : TimeParser) (a : Value)
    (rb : Unit → Except Err Value),
    ((full tp).scT "??" = some qqSC) ∧
    ((full tp).infT "??" = some (InfE.fnE qqOpFn)) ∧
    (a ≠ Value.vbool false → a ≠ Value.vnil →
      runBinOp (full tp) "??" a rb = (Except.ok a, false)) ∧
    ((a = Value.vbool false ∨ a = Value.vnil) →
      runBinOp (full tp) "??" a rb = (rb (), true)) := by
  intro tp a rb
  have hsc : (full tp).scT "??" = some qqSC := rfl
  have hinf : (full tp).infT "??" = some (InfE.fnE qqOpFn) := rfl
  refine ⟨hsc, hinf, ?_, ?_⟩
  · intro h1 h2
    have hq : qqSC a = (a, true) := by
      simp [qqSC, h1, h2]
    simp [runBinOp, hinf, hsc, evalInfixStrict, hq]
  · intro h
    have hq : qqSC a = (a, false) := by
      rcases h with h | h <;> subst h <;> simp [qqSC]
    have hop : ∀ b, qqOpFn a b = Except.ok b := by
      intro b
      rcases h with h | h <;> subst h <;> simp [qqOpFn]
    cases hrb : rb () with
    | ok b => simp [runBinOp, hinf, hsc, evalInfixStrict, hq, hrb, hop]
    | error e => simp [runBinOp, hinf, hsc, evalInfixStrict, hq, hrb]

/-- Witness for C4: `1 ?? rb` returns 1 without running `rb`; `nil ?? rb`
returns `rb`'s result. -/
theorem coalescing_operator_semantics_witness :
    runBinOp (full (fun _ _ => none)) "??" (Value.vnum 1)
        (fun _ => Except.ok (Value.vstr "x")) = (Except.ok (Value.vnum 1), false) ∧
    runBinOp (full (fun _ _ => none)) "??" Value.vnil
        (fun _ => Except.ok (Value.vstr "x")) = (Except.ok (Value.vstr "x"), true) := by
  constructor
  · exact (coalescing_operator_semantics (fun _ _ => none) (Value.vnum 1)
      (fun _ => Except.ok (Value.vstr "x"))).2.2.1
      (fun h => Value.noConfusion h) (fun h => Value.noConfusion h)
  · exact (coalescing_operator_semantics (fun _ _ => none) Value.vnil
      (fun _ => Except.ok (Value.vstr "x"))).2.2.2 (Or.inr rfl)

/-- Counterexample for C5: with a condition that does not coerce to a
boolean, the ternary evaluates NEITHER branch (a TypeError aborts it), so
"the ternary evaluates exactly one of t and e", read over every condition
value, is false: at this input neither "then ran and else did not" nor "else
ran and then did not" holds. -/
theorem ternary_exactly_one_counterexample :
    ¬(((evalTernary (Value.vstr "oops") (fun _ => Except.ok (Value.vnum 1))
          (fun _ => Except.ok (Value.vnum 2))).2.1 = true ∧
       (evalTernary (Value.vstr "oops") (fun _ => Except.ok (Value.vnum 1))
          (fun _ => Except.ok (Value.vnum 2))).2.2 = false) ∨
      ((evalTernary (Value.vstr "oops") (fun _ => Except.ok (Value.vnum 1))
          (fun _ => Except.ok (Value.vnum 2))).2.1 = false ∧
       (evalTernary (Value.vstr "oops") (fun _ => Except.ok (Value.vnum 1))
          (fun _ => Except.ok (Value.vnum 2))).2.2 = true)) := by
  decide

/-- Claim C5 (amended): `false && rb` yields false and `true || rb` yields
true without evaluating `rb`; `x ?? rb` with `x` neither false nor nil does
not evaluate `rb`; and whenever the ternary condition coerces to a boolean,
exactly one of the two branches is evaluated — the one selected by the
condition (when the condition does not coerce, neither branch runs and a
TypeError results, which is the one correction to the claim). -/
theorem short_circuit_semantics : ∀ (tp : TimeParser) (x c : Value)
    (rb t e : Unit → Except Err Value) (bv : Bool),
    (runBinOp (full tp) "&&" (Value.vbool false) rb
      = (Except.ok (Value.vbool false), false)) ∧
    (runBinOp (full tp) "||" (Value.vbool true) rb
      = (Except.ok (Value.vbool true), false)) ∧
    (x ≠ Value.vbool false → x ≠ Value.vnil →
      (runBinOp (full tp) "??" x rb).2 = false) ∧
    (convertToBool c = some bv →
      (evalTernary c t e).2.1 = bv ∧ (evalTernary c t e).2.2 = !bv ∧
      (bv = true → (evalTernary c t e).1 = t ()) ∧
      (bv = false → (evalTernary c t e).1 = e ())) := by
  intro tp x c rb t e bv
  have hascT : (full tp).scT "&&" = some scAnd := rfl
  have hainf : ∃ f, (full tp).infT "&&" = some (InfE.fnE f) := ⟨_, rfl⟩
  have hoscT : (full tp).scT "||" = some scOr := rfl
  have hoinf : ∃ f, (full tp).infT "||" = some (InfE.fnE f) := ⟨_, rfl⟩
  refine ⟨?_, ?_, ?_, ?_⟩
  · obtain ⟨f, hf⟩ := hainf
    have hstop : scAnd (Value.vbool false) = (Value.vbool false, true) := by
      simp [scAnd]
    simp [runBinOp, hf, hascT, evalInfixStrict, hstop]
  · obtain ⟨f, hf⟩ := hoinf
    have hstop : scOr (Value.vbool true) = (Value.vbool true, true) := by
      simp [scOr]
    simp [runBinOp, hf, hoscT, evalInfixStrict, hstop]
  · intro h1 h2
    have hsc : (full tp).scT "??" = some qqSC := rfl
    have hinf : (full tp).infT "??" = some (InfE.fnE qqOpFn) := rfl
    have hq : qqSC x = (x, true) := by
      simp [qqSC, h1, h2]
    simp [runBinOp, hinf, hsc, evalInfixStrict, hq]
  · intro hc
    cases bv with
    | true => simp [evalTernary, hc]
    | false => simp [evalTernary, hc]

/-- Witness for C5: `false && rb` stops with false without running `rb`, and
a ternary on the boolean true runs exactly the then-branch. -/
theorem short_circuit_semantics_witness :
    runBinOp (full (fun _ _ => none)) "&&" (Value.vbool false)
        (fun _ => Except.ok Value.vnil) = (Except.ok (Value.vbool false), false) ∧
    (evalTernary (Value.vbool true) (fun _ => Except.ok (Value.vnum 1))
        (fun _ => Except.ok (Value.vnum 2))).2.1 = true ∧
    (evalTernary (Value.vbool true) (fun _ => Except.ok (Value.vnum 1))
        (fun _ => Except.ok (Value.vnum 2))).2.2 = false := by
  have h := short_circuit_semantics (fun _ _ => none) Value.vnil
    (Value.vbool true) (fun _ => Except.ok Value.vnil)
    (fun _ => Except.ok (Value.vnum 1)) (fun _ => Except.ok (Value.vnum 2)) true
  exact ⟨h.1, (h.2.2.2 rfl).1, by simpa using (h.2.2.2 rfl).2.1⟩

theorem dateLoop_findSome (tp : TimeParser) (s : String) : ∀ l : List String,
    dateLoop tp s l = (match l.findSome? (fun f => tp f s) with
      | some t => Except.ok (Value.vtime t)
      | none => Except.error Err.functionError) := by
  intro l
  induction l with
  | nil => rfl
  | cons f rest ih =>
    cases htp : tp f s with
    | some t => simp [dateLoop, List.findSome?_cons, htp]
    | none => simp [dateLoop, List.findSome?_cons, htp, ih]

/-- Claim C6: `date(s)` tries exactly the spec's ordered format list —
ANSIC, Unix date, Ruby date, Kitchen, RFC3339, RFC3339-nano, then the
ISO-8601 variants — returns the parse result of the first matching format,
and is a FunctionError when no format matches, for every host parsing
capability. -/
theorem date_formats_first_match : ∀ (tp : TimeParser) (s : String),
    (goDateFormats = specDateFormats) ∧
    (dateGo tp [Value.vstr s] = (match specDateFormats.findSome? (fun f => tp f s) with
      | some t => Except.ok (Value.vtime t)
      | none => Except.error Err.functionError)) := by
  intro tp s
  exact ⟨rfl, dateLoop_findSome tp s goDateFormats⟩

end Gval
